import Mathlib

/-!
Shallow embedding of the Kaleidoscope front end (lexer, recursive-descent /
precedence-climbing parser, AST construction) of this repository.

Two variants of the pipeline exist in the sources:
* `src/main.cpp` (the chapter-2 REPL): its `gettok` converts a pending
  newline into a `;` token, its `ParseIdentifierExpr` tests the argument
  separator against `'.'`, and `ParseTopLevelExpr` uses `""` as the
  anonymous prototype name.  Below this variant is selected by
  `nlSemi := true` for the lexer and `mainCfg` for the parser.
* the JIT variant (`src/unnamed/part_000`): no newline rule, separator
  `','`, anonymous name `"__anon_expr"`.  Selected by `nlSemi := false`
  and `jitCfg`.

Modelling conventions: the C `int` channel that carries either a character
or `EOF` is `Option Char` (`none` = `EOF`); `double` is `ℚ` (every literal
the claims touch is decimal and exactly representable); the character
source is a finite list of characters followed by end-of-stream, which is
the interface §6 of the specification assigns to the (out-of-scope)
interactive input wrapper; recursive functions take explicit fuel so that
every definition computes, with fuel-sufficiency proved where termination
itself is the claim.
-/

/-- C `isspace` (space, tab, newline, vertical tab, form feed, carriage return). -/
def isspace (c : Char) : Bool :=
  c = ' ' || c = '\t' || c = '\n' || c = '\x0b' || c = '\x0c' || c = '\r'

/-- C `isalpha` restricted to ASCII letters. -/
def isalpha (c : Char) : Bool :=
  ('A' ≤ c && c ≤ 'Z') || ('a' ≤ c && c ≤ 'z')

/-- C `isdigit`. -/
def isdigit (c : Char) : Bool :=
  '0' ≤ c && c ≤ '9'

/-- C `isalnum`. -/
def isalnum (c : Char) : Bool :=
  isalpha c || isdigit c

/-- Value of a string of decimal digits, most significant digit first. -/
def digitsVal (l : List Char) : ℕ :=
  l.foldl (fun a c => 10 * a + (c.toNat - 48)) 0

/-- Model of C `strtod` restricted to the strings the number rule of the lexer can
build (nonempty strings of decimal digits and dots): the longest prefix of the
form `digits [ . digits ]` is converted; when that prefix contains no digit at
all (the lone-dot case) there is no conversion and `strtod` yields `0.0`. -/
def strtod (s : String) : ℚ :=
  let l := s.data
  let d1 := l.takeWhile isdigit
  match l.drop d1.length with
  | '.' :: r2 =>
      let d2 := r2.takeWhile isdigit
      (digitsVal d1 : ℚ) + (digitsVal d2 : ℚ) / (10 : ℚ) ^ d2.length
  | _ => (digitsVal d1 : ℚ)

/-- The token alphabet of `enum Token` plus the two token payloads
(`IdentifierStr`, `NumVal`): negative enum values become dedicated
constructors, any other character is passed through as itself. -/
inductive Tok where
  | eof
  | defKw
  | externKw
  | ident (s : String)
  | num (v : ℚ)
  | ch (c : Char)
deriving DecidableEq, Repr

/-- Lexer state: the remaining character stream and the one pending
character of lookahead (`static int LastChar`, initially a space);
`none` records that `EOF` has been read. -/
structure LexState where
  input : List Char
  lastChar : Option Char
deriving DecidableEq, Repr

/-- Fresh lexer state for a character stream (`LastChar = ' '`). -/
def initLex (s : String) : LexState :=
  ⟨s.data, some ' '⟩

/-- The `while (isspace(LastChar)) LastChar = getBufChar();` loop. -/
def skipSpaces : Option Char → List Char → Option Char × List Char
  | none, inp => (none, inp)
  | some c, inp =>
    if isspace c then
      match inp with
      | [] => (none, [])
      | d :: rest => skipSpaces (some d) rest
    else (some c, inp)

/-- The identifier loop: `while (isalnum((LastChar = getBufChar()))) IdentifierStr += LastChar;`.
Returns the accumulated name, the terminating character and the rest of the stream. -/
def readIdent (acc : List Char) : List Char → List Char × Option Char × List Char
  | [] => (acc, none, [])
  | d :: rest => if isalnum d then readIdent (acc ++ [d]) rest else (acc, some d, rest)

/-- The number loop: `do { NumStr += LastChar; ... } while (isdigit(LastChar) || LastChar == '.');`,
entered after the first digit-or-dot has been recorded in `acc`. -/
def readNumLoop (acc : List Char) : List Char → List Char × Option Char × List Char
  | [] => (acc, none, [])
  | d :: rest =>
    if isdigit d || d = '.' then readNumLoop (acc ++ [d]) rest else (acc, some d, rest)

/-- The comment loop: `do LastChar = getBufChar(); while (LastChar != EOF && LastChar != '\n' && LastChar != '\r');`. -/
def skipComment : List Char → Option Char × List Char
  | [] => (none, [])
  | d :: rest => if d = '\n' || d = '\r' then (some d, rest) else skipComment rest

/-- Model of `gettok`, fuelled (the only self-call is the tail call that resumes
tokenisation after a line comment).  `nlSemi = true` selects the
`src/main.cpp` variant, whose first action turns a pending newline into a
`;` token; `nlSemi = false` is the JIT variant, which has no such rule. -/
def gettokF (nlSemi : Bool) : Nat → LexState → Option (Tok × LexState)
  | 0, _ => none
  | fuel+1, st =>
    if nlSemi = true ∧ st.lastChar = some '\n' then
      some (Tok.ch ';', ⟨st.input, some ' '⟩)
    else
      match skipSpaces st.lastChar st.input with
      | (some c, inp1) =>
        if isalpha c then
          match readIdent [c] inp1 with
          | (s, lc2, inp2) =>
            let idStr := String.mk s
            some ((if idStr = "def" then Tok.defKw
                   else if idStr = "extern" then Tok.externKw
                   else Tok.ident idStr), ⟨inp2, lc2⟩)
        else if isdigit c || c = '.' then
          match readNumLoop [c] inp1 with
          | (s, lc2, inp2) => some (Tok.num (strtod (String.mk s)), ⟨inp2, lc2⟩)
        else if c = '#' then
          match skipComment inp1 with
          | (some c2, inp2) => gettokF nlSemi fuel ⟨inp2, some c2⟩
          | (none, inp2) => some (Tok.eof, ⟨inp2, none⟩)
        else
          match inp1 with
          | [] => some (Tok.ch c, ⟨[], none⟩)
          | d :: rest => some (Tok.ch c, ⟨rest, some d⟩)
      | (none, inp1) => some (Tok.eof, ⟨inp1, none⟩)

/-- Repeated `gettok` until the end-of-input token, collecting the token
sequence of a character stream (outer fuel; each single `gettok` call gets
fuel `|input| + 1`, enough by `gettokF_enough_fuel` below). -/
def lexAllF (nlSemi : Bool) : Nat → LexState → Option (List Tok)
  | 0, _ => none
  | fuel+1, st =>
    match gettokF nlSemi (st.input.length + 1) st with
    | none => none
    | some (Tok.eof, _) => some [Tok.eof]
    | some (t, st') => Option.map (fun l => t :: l) (lexAllF nlSemi fuel st')

/-- Token sequence of a whole input string (fuel large enough by
`lexAllF_enough_fuel` below). -/
def lexStr (nlSemi : Bool) (s : String) : List Tok :=
  (lexAllF nlSemi (2 * s.length + 4) (initLex s)).getD []

theorem strtod_dot : strtod (String.mk ['.']) = 0 := by
  show (digitsVal [] : ℚ) + (digitsVal [] : ℚ) / (10 : ℚ) ^ (0 : ℕ) = 0
  norm_num [digitsVal]

/-! ## AST -/

/-- Model of `ExprAST` and its subclasses, as a closed sum:
`NumberExprAST`, `VariableExprAST`, `BinaryExprAST`, `CallExprAST`. -/
inductive Expr where
  | num (val : ℚ)
  | var (name : String)
  | binop (op : Char) (lhs rhs : Expr)
  | call (callee : String) (args : List Expr)

/-- Model of `PrototypeAST`: a function name and its parameter names. -/
structure Prototype where
  name : String
  args : List String
deriving DecidableEq, Repr

/-- Model of `FunctionAST`: a prototype together with a body expression. -/
structure FunctionAST where
  proto : Prototype
  body : Expr

/-! ## Parser -/

/-- The parser view of the token stream: the head of the list is
`CurTok`; once the stream is exhausted every further `gettok` yields the
end-of-input token, so an empty list reads as `tok_eof`. -/
abbrev Toks := List Tok

/-- The current token (`CurTok`). -/
def curT (ts : Toks) : Tok :=
  ts.headD Tok.eof

/-- Model of `getNextToken()`: drop the current token. -/
def adv (ts : Toks) : Toks :=
  ts.tail

/-- Outcome of a parse function: a node plus the stream after it, or the
`LogError` message plus the stream at the moment of the error (`CurTok`
is the head of that stream). -/
inductive PR (α : Type) where
  | ok (a : α) (rest : Toks)
  | err (msg : String) (rest : Toks)

/-- The stream component of a parse outcome. -/
def PR.rest : PR α → Toks
  | .ok _ r => r
  | .err _ r => r

/-- Model of `BinopPrecedence` as installed by `main()`:
`'<'` → 10, `'+'` → 20, `'-'` → 20, `'*'` → 40. -/
def BinopPrecedence : List (Char × Int) :=
  [('<', 10), ('+', 20), ('-', 20), ('*', 40)]

/-- Model of `GetTokPrecedence` over the installed table: `-1` unless `CurTok` is an
ASCII character registered with a positive precedence.  (The `std::map`
side effect of `BinopPrecedence[CurTok]` — default-inserting a zero entry —
is modelled by `GetTokPrecedenceUpd` below and shown there to leave every
precedence query unchanged, so the parser may read precedences through
this pure function.)  Non-character tokens are the negative `enum Token`
values, for which `isascii` is false. -/
def GetTokPrecedence (t : Tok) : Int :=
  match t with
  | .ch c =>
    if c.toNat ≤ 127 then
      match BinopPrecedence.lookup c with
      | some p => if p ≤ 0 then -1 else p
      | none => -1
    else -1
  | _ => -1

/-- Model of `BinopPrecedence[CurTok]` with the `std::map::operator[]` side effect:
an absent key is inserted with value `0`. -/
def mapIndex (m : List (Char × Int)) (c : Char) : Int × List (Char × Int) :=
  match m.lookup c with
  | some p => (p, m)
  | none => (0, m ++ [(c, 0)])

/-- Model of `GetTokPrecedence` acting on an explicit table state. -/
def GetTokPrecedenceUpd (t : Tok) (m : List (Char × Int)) :
    Int × List (Char × Int) :=
  match t with
  | .ch c =>
    if c.toNat ≤ 127 then
      match mapIndex m c with
      | (p, m') => (if p ≤ 0 then -1 else p, m')
    else (-1, m)
  | _ => (-1, m)

/-- The operator character stored into `BinaryExprAST` (`int BinOp = CurTok`);
`ParseBinOpRHS` only reads it when the precedence is positive, which forces
the token to be a character. -/
def opCharOf : Tok → Char
  | .ch c => c
  | _ => ' '

/-- Parser configuration: the two pipeline variants differ only in the
argument-list separator tested by `ParseIdentifierExpr` (`'.'` in
`src/main.cpp`, `','` in the JIT variant) and the anonymous prototype name
used by `ParseTopLevelExpr` (`""` and `"__anon_expr"` respectively). -/
structure Cfg where
  argSep : Char
  anonName : String

/-- The `src/main.cpp` parser. -/
def mainCfg : Cfg := ⟨'.', ""⟩

/-- The JIT-variant parser. -/
def jitCfg : Cfg := ⟨',', "__anon_expr"⟩

/-- Model of `ParseNumberExpr`: wrap the pending `NumVal` and advance. -/
def ParseNumberExpr (numVal : ℚ) (ts : Toks) : PR Expr :=
  .ok (.num numVal) (adv ts)

mutual

/-- Model of `ParseExpression`: one primary, then `ParseBinOpRHS` from precedence 0. -/
def ParseExpression (cfg : Cfg) : Nat → Toks → PR Expr
  | 0, ts => .err ("parser fuel exhausted") ts
  | fuel+1, ts =>
    match ParsePrimary cfg fuel ts with
    | .err m r => .err m r
    | .ok lhs ts1 => ParseBinOpRHS cfg fuel 0 lhs ts1

/-- Model of `ParsePrimary`: dispatch on `CurTok`. -/
def ParsePrimary (cfg : Cfg) : Nat → Toks → PR Expr
  | 0, ts => .err ("parser fuel exhausted") ts
  | fuel+1, ts =>
    match curT ts with
    | .ident s => ParseIdentifierExpr cfg fuel s ts
    | .num v => ParseNumberExpr v ts
    | .ch '(' => ParseParenExpr cfg fuel ts
    | _ => .err ("unknown token") ts

/-- Model of `ParseParenExpr`: consume `(`, parse an expression, require `)`. -/
def ParseParenExpr (cfg : Cfg) : Nat → Toks → PR Expr
  | 0, ts => .err ("parser fuel exhausted") ts
  | fuel+1, ts =>
    match ParseExpression cfg fuel (adv ts) with
    | .err m r => .err m r
    | .ok v ts1 =>
      if curT ts1 = .ch ')' then .ok v (adv ts1)
      else .err ("expected \x27)\x27") ts1

/-- Model of `ParseIdentifierExpr` after `IdentifierStr` has been captured: a bare
variable reference, or a call whose argument list is parsed by the loop
`ParseCallArgs`. -/
def ParseIdentifierExpr (cfg : Cfg) : Nat → String → Toks → PR Expr
  | 0, _, ts => .err ("parser fuel exhausted") ts
  | fuel+1, idName, ts =>
    if curT (adv ts) = .ch '(' then
      if curT (adv (adv ts)) = .ch ')' then .ok (.call idName []) (adv (adv (adv ts)))
      else
        match ParseCallArgs cfg fuel [] (adv (adv ts)) with
        | .err m r => .err m r
        | .ok args ts3 => .ok (.call idName args) (adv ts3)
    else .ok (.var idName) (adv ts)

/-- The `while (true)` argument loop of `ParseIdentifierExpr`: parse an
expression, stop before `)`, otherwise require the separator character
(`','` in the JIT variant, `'.'` in `src/main.cpp`) and continue.  On the
stop case the closing `)` is left for the caller to consume. -/
def ParseCallArgs (cfg : Cfg) : Nat → List Expr → Toks → PR (List Expr)
  | 0, _, ts => .err ("parser fuel exhausted") ts
  | fuel+1, args, ts =>
    match ParseExpression cfg fuel ts with
    | .err m r => .err m r
    | .ok arg ts1 =>
      if curT ts1 = .ch ')' then .ok (args ++ [arg]) ts1
      else if curT ts1 = .ch cfg.argSep then ParseCallArgs cfg fuel (args ++ [arg]) (adv ts1)
      else .err ("expected \x27)\x27 or \x27,\x27 in argument list") ts1

/-- Model of `ParseBinOpRHS`: the precedence-climbing loop. -/
def ParseBinOpRHS (cfg : Cfg) : Nat → Int → Expr → Toks → PR Expr
  | 0, _, _, ts => .err ("parser fuel exhausted") ts
  | fuel+1, exprPrec, lhs, ts =>
    if GetTokPrecedence (curT ts) < exprPrec then .ok lhs ts
    else
      match ParsePrimary cfg fuel (adv ts) with
      | .err m r => .err m r
      | .ok rhs ts2 =>
        if GetTokPrecedence (curT ts) < GetTokPrecedence (curT ts2) then
          match ParseBinOpRHS cfg fuel (GetTokPrecedence (curT ts)) rhs ts2 with
          | .err m r => .err m r
          | .ok rhs1 ts3 =>
            ParseBinOpRHS cfg fuel exprPrec (.binop (opCharOf (curT ts)) lhs rhs1) ts3
        else ParseBinOpRHS cfg fuel exprPrec (.binop (opCharOf (curT ts)) lhs rhs) ts2

end

/-- The parameter-collecting loop of `ParsePrototype`:
`while (getNextToken() == tok_identifier) ArgNames.push_back(IdentifierStr);`.
Note that it advances first, so it is entered with `CurTok = '('`. -/
def collectParams (acc : List String) : Toks → List String × Toks
  | [] => (acc, [])
  | _ :: ts1 =>
    match curT ts1 with
    | .ident s => collectParams (acc ++ [s]) ts1
    | _ => (acc, ts1)

/-- Model of `ParsePrototype`: function-name identifier, `(`, parameter identifiers
with no separators, `)`. -/
def ParsePrototype (ts : Toks) : PR Prototype :=
  match curT ts with
  | .ident fnName =>
    if curT (adv ts) = .ch '(' then
      match collectParams [] (adv ts) with
      | (argNames, ts2) =>
        if curT ts2 = .ch ')' then .ok ⟨fnName, argNames⟩ (adv ts2)
        else .err ("expected \x27)\x27") ts2
    else .err ("expected \x27(\x27") (adv ts)
  | _ => .err ("expected function name") ts

/-- Model of `ParseDefinition`: consume `def`, a prototype, then a body expression. -/
def ParseDefinition (cfg : Cfg) (fuel : Nat) (ts : Toks) : PR FunctionAST :=
  match ParsePrototype (adv ts) with
  | .err m r => .err m r
  | .ok proto ts1 =>
    match ParseExpression cfg fuel ts1 with
    | .err m r => .err m r
    | .ok e ts2 => .ok ⟨proto, e⟩ ts2

/-- Model of `ParseExtern`: consume `extern`, then a bare prototype. -/
def ParseExternDecl (ts : Toks) : PR Prototype :=
  ParsePrototype (adv ts)

/-- Model of `ParseTopLevelExpr`: a bare expression wrapped in an anonymous
zero-parameter function (`""` in `src/main.cpp`, `"__anon_expr"` in the
JIT variant). -/
def ParseTopLevelExpr (cfg : Cfg) (fuel : Nat) (ts : Toks) : PR FunctionAST :=
  match ParseExpression cfg fuel ts with
  | .err m r => .err m r
  | .ok e ts1 => .ok ⟨⟨cfg.anonName, []⟩, e⟩ ts1

/-! ## Driver loop -/

/-- Model of `HandleDefinition`: on failure, skip one token for error recovery. -/
def HandleDefinition (cfg : Cfg) (fuel : Nat) (ts : Toks) : Toks :=
  match ParseDefinition cfg fuel ts with
  | .ok _ r => r
  | .err _ r => adv r

/-- Model of `HandleExtern`. -/
def HandleExtern (_cfg : Cfg) (_fuel : Nat) (ts : Toks) : Toks :=
  match ParseExternDecl ts with
  | .ok _ r => r
  | .err _ r => adv r

/-- Model of `HandleTopLevelExpression`. -/
def HandleTopLevelExpression (cfg : Cfg) (fuel : Nat) (ts : Toks) : Toks :=
  match ParseTopLevelExpr cfg fuel ts with
  | .ok _ r => r
  | .err _ r => adv r

/-- One turn of the `while (1) switch (CurTok)` dispatch of `MainLoop`: `none` means the
`return` on `tok_eof`, `some ts'` the stream after one dispatched
construct.  Parser fuel for the turn is `|ts| + 1`. -/
def MainLoopStep (cfg : Cfg) (ts : Toks) : Option Toks :=
  match curT ts with
  | .eof => none
  | .ch ';' => some (adv ts)
  | .defKw => some (HandleDefinition cfg (ts.length + 1) ts)
  | .externKw => some (HandleExtern cfg (ts.length + 1) ts)
  | _ => some (HandleTopLevelExpression cfg (ts.length + 1) ts)

/-- At most `n` turns of `MainLoop`: `none` once the loop has returned. -/
def MainLoopIter (cfg : Cfg) : Nat → Toks → Option Toks
  | 0, ts => some ts
  | n+1, ts =>
    match MainLoopStep cfg ts with
    | none => none
    | some ts1 => MainLoopIter cfg n ts1

/-! ## Lexer lemmas -/

/-- Weight of the pending character for the lexer termination measure. -/
def lcWeight : Option Char → ℕ
  | none => 0
  | some c => if c = '\n' then 3 else 2

/-- Termination measure of a lexer state: each successful non-`eof`
`gettok` strictly decreases it. -/
def lexMeasure (st : LexState) : ℕ :=
  2 * st.input.length + lcWeight st.lastChar

theorem lcWeight_le (lc : Option Char) : lcWeight lc ≤ 3 := by
  match lc with
  | none => simp [lcWeight]
  | some c => simp only [lcWeight]; split <;> omega

theorem skipSpaces_not_space :
    ∀ lc inp c inp1, skipSpaces lc inp = (some c, inp1) → isspace c = false := by
  intro lc inp
  induction inp generalizing lc with
  | nil =>
    intro c inp1 h
    match lc with
    | none => simp [skipSpaces] at h
    | some c0 =>
      rw [skipSpaces] at h
      split at h
      · simp at h
      · rename_i hsp
        simp only [Prod.mk.injEq, Option.some.injEq] at h
        rcases h with ⟨rfl, rfl⟩
        simpa using hsp
  | cons d rest ih =>
    intro c inp1 h
    match lc with
    | none => simp [skipSpaces] at h
    | some c0 =>
      rw [skipSpaces] at h
      split at h
      · exact ih (some d) c inp1 h
      · rename_i hsp
        simp only [Prod.mk.injEq, Option.some.injEq] at h
        rcases h with ⟨rfl, rfl⟩
        simpa using hsp

theorem skipSpaces_len (lc : Option Char) (inp : List Char) :
    (skipSpaces lc inp).2.length ≤ inp.length := by
  induction inp generalizing lc with
  | nil =>
    match lc with
    | none => simp [skipSpaces]
    | some c0 => rw [skipSpaces]; split <;> simp
  | cons d rest ih =>
    match lc with
    | none => simp [skipSpaces]
    | some c0 =>
      rw [skipSpaces]
      split
      · exact (ih (some d)).trans (by simp)
      · simp

theorem skipSpaces_mu (lc : Option Char) (inp : List Char) :
    2 * (skipSpaces lc inp).2.length + lcWeight (skipSpaces lc inp).1 ≤
      2 * inp.length + lcWeight lc := by
  induction inp generalizing lc with
  | nil =>
    match lc with
    | none => simp [skipSpaces]
    | some c0 =>
      rw [skipSpaces]; split
      · simp [lcWeight]
      · simp
  | cons d rest ih =>
    match lc with
    | none => simp [skipSpaces]
    | some c0 =>
      rw [skipSpaces]
      split
      · refine (ih (some d)).trans ?_
        have h1 := lcWeight_le (some d)
        have h2 : 2 ≤ lcWeight (some c0) := by simp only [lcWeight]; split <;> omega
        simp only [List.length_cons]
        omega
      · simp

theorem readIdent_mu (inp : List Char) : ∀ acc,
    2 * (readIdent acc inp).2.2.length + lcWeight (readIdent acc inp).2.1 ≤
      2 * inp.length + 1 := by
  induction inp with
  | nil => intro acc; simp [readIdent, lcWeight]
  | cons d rest ih =>
    intro acc
    rw [readIdent]
    split
    · refine (ih (acc ++ [d])).trans ?_
      simp only [List.length_cons]
      omega
    · have := lcWeight_le (some d)
      simp only [List.length_cons]
      omega

theorem readNumLoop_mu (inp : List Char) : ∀ acc,
    2 * (readNumLoop acc inp).2.2.length + lcWeight (readNumLoop acc inp).2.1 ≤
      2 * inp.length + 1 := by
  induction inp with
  | nil => intro acc; simp [readNumLoop, lcWeight]
  | cons d rest ih =>
    intro acc
    rw [readNumLoop]
    split
    · refine (ih (acc ++ [d])).trans ?_
      simp only [List.length_cons]
      omega
    · have := lcWeight_le (some d)
      simp only [List.length_cons]
      omega

theorem skipComment_mu :
    ∀ inp c2 inp2, skipComment inp = (some c2, inp2) →
      2 * inp2.length + lcWeight (some c2) ≤ 2 * inp.length + 1 ∧
        inp2.length < inp.length := by
  intro inp
  induction inp with
  | nil => intro c2 inp2 h; simp [skipComment] at h
  | cons d rest ih =>
    intro c2 inp2 h
    rw [skipComment] at h
    split at h
    · simp only [Prod.mk.injEq, Option.some.injEq] at h
      rcases h with ⟨rfl, rfl⟩
      have := lcWeight_le (some d)
      simp only [List.length_cons]
      omega
    · have := ih c2 inp2 h
      simp only [List.length_cons]
      omega

/-- A single `gettok` call always completes on fuel exceeding the remaining
stream length (the only self-call, resuming after a comment, consumes part
of the stream). -/
theorem gettokF_enough_fuel (nlSemi : Bool) :
    ∀ fuel st, st.input.length < fuel → (gettokF nlSemi fuel st).isSome := by
  intro fuel
  induction fuel with
  | zero => intro st h; omega
  | succ fuel ih =>
    intro st h
    rw [gettokF]
    split
    · simp
    · split
      · rename_i c inp1 heq
        split
        · rcases hri : readIdent [c] inp1 with ⟨s, lc2, inp2⟩
          simp [hri]
        · split
          · rcases hrn : readNumLoop [c] inp1 with ⟨s, lc2, inp2⟩
            simp [hrn]
          · split
            · split
              · rename_i c2 inp2 hsc
                apply ih
                have h1 : inp1.length ≤ st.input.length := by
                  have hs := skipSpaces_len st.lastChar st.input
                  rw [heq] at hs
                  simpa using hs
                have h2 := (skipComment_mu inp1 c2 inp2 hsc).2
                show inp2.length < fuel
                omega
              · simp
            · split <;> simp
      · simp

/-- Every successful `gettok` that does not return the end-of-input token
strictly shrinks the lexer measure: tokenisation of a finite stream ends. -/
theorem gettokF_measure (nlSemi : Bool) :
    ∀ fuel st t st', gettokF nlSemi fuel st = some (t, st') → t ≠ Tok.eof →
      lexMeasure st' < lexMeasure st := by
  intro fuel
  induction fuel with
  | zero => intro st t st' h ht; simp [gettokF] at h
  | succ fuel ih =>
    intro st t st' h ht
    rw [gettokF] at h
    split at h
    · rename_i hnl
      simp only [Option.some.injEq, Prod.mk.injEq] at h
      rcases h with ⟨-, rfl⟩
      rcases hnl with ⟨-, hlc⟩
      have h2 : lcWeight (some ' ') = 2 := rfl
      have h3 : lcWeight (some '\n') = 3 := rfl
      simp only [lexMeasure, hlc, h2, h3]
      omega
    · split at h
      · rename_i c inp1 heq
        have hcs : isspace c = false := skipSpaces_not_space _ _ _ _ heq
        have hcn : c ≠ '\n' := by
          intro hc
          rw [hc] at hcs
          simp [isspace] at hcs
        have hw : lcWeight (some c) = 2 := by simp [lcWeight, hcn]
        have hmu1 : 2 * inp1.length + 2 ≤ lexMeasure st := by
          have hs := skipSpaces_mu st.lastChar st.input
          rw [heq, hw] at hs
          exact hs
        split at h
        · rcases hri : readIdent [c] inp1 with ⟨s, lc2, inp2⟩
          rw [hri] at h
          simp only [Option.some.injEq, Prod.mk.injEq] at h
          rcases h with ⟨-, rfl⟩
          have hmu2 := readIdent_mu inp1 [c]
          rw [hri] at hmu2
          simp only [lexMeasure] at hmu1 hmu2 ⊢
          omega
        · split at h
          · rcases hrn : readNumLoop [c] inp1 with ⟨s, lc2, inp2⟩
            rw [hrn] at h
            simp only [Option.some.injEq, Prod.mk.injEq] at h
            rcases h with ⟨-, rfl⟩
            have hmu2 := readNumLoop_mu inp1 [c]
            rw [hrn] at hmu2
            simp only [lexMeasure] at hmu1 hmu2 ⊢
            omega
          · split at h
            · split at h
              · rename_i c2 inp2 hsc
                have hrec := ih _ _ _ h ht
                have hc2 := (skipComment_mu inp1 c2 inp2 hsc).1
                simp only [lexMeasure] at hrec hmu1 ⊢
                omega
              · simp only [Option.some.injEq, Prod.mk.injEq] at h
                rcases h with ⟨h1, -⟩
                exact absurd h1.symm ht
            · split at h
              · simp only [Option.some.injEq, Prod.mk.injEq] at h
                rcases h with ⟨-, rfl⟩
                have hwn : lcWeight none = 0 := rfl
                simp only [lexMeasure, hwn] at hmu1 ⊢
                omega
              · rename_i d rest0
                simp only [Option.some.injEq, Prod.mk.injEq] at h
                rcases h with ⟨-, rfl⟩
                have hw3 := lcWeight_le (some d)
                simp only [lexMeasure, List.length_cons] at hmu1 ⊢
                omega
      · simp only [Option.some.injEq, Prod.mk.injEq] at h
        rcases h with ⟨h1, -⟩
        exact absurd h1.symm ht

/-- Tokenising a whole stream completes on fuel exceeding the lexer measure. -/
theorem lexAllF_enough_fuel (nlSemi : Bool) :
    ∀ fuel st, lexMeasure st < fuel → (lexAllF nlSemi fuel st).isSome := by
  intro fuel
  induction fuel with
  | zero => intro st h; omega
  | succ fuel ih =>
    intro st h
    rw [lexAllF]
    have hg := gettokF_enough_fuel nlSemi (st.input.length + 1) st (by omega)
    rcases hgt : gettokF nlSemi (st.input.length + 1) st with - | ⟨t, st'⟩
    · rw [hgt] at hg; simp at hg
    · have hlt : t ≠ Tok.eof → lexMeasure st' < fuel := by
        intro hne
        have := gettokF_measure nlSemi _ _ _ _ hgt hne
        omega
      cases t with
      | eof => simp
      | defKw =>
        rcases Option.isSome_iff_exists.mp (ih st' (hlt (by simp))) with ⟨l, hl⟩
        simp [hl]
      | externKw =>
        rcases Option.isSome_iff_exists.mp (ih st' (hlt (by simp))) with ⟨l, hl⟩
        simp [hl]
      | ident s =>
        rcases Option.isSome_iff_exists.mp (ih st' (hlt (by simp))) with ⟨l, hl⟩
        simp [hl]
      | num v =>
        rcases Option.isSome_iff_exists.mp (ih st' (hlt (by simp))) with ⟨l, hl⟩
        simp [hl]
      | ch c =>
        rcases Option.isSome_iff_exists.mp (ih st' (hlt (by simp))) with ⟨l, hl⟩
        simp [hl]

/-! ## What characters can reach the single-character-token rule -/

/-- Any single-character token the lexer emits is either the `;` that the
`src/main.cpp` variant substitutes for a newline, or a character that fell
through every earlier rule: not whitespace, not a letter, not a digit, not
a dot, not `#`. -/
theorem gettokF_ch_spec (nlSemi : Bool) :
    ∀ fuel st c st', gettokF nlSemi fuel st = some (Tok.ch c, st') →
      isspace c = false ∧ isalpha c = false ∧ isdigit c = false ∧
        c ≠ '.' ∧ c ≠ '#' ∨ nlSemi = true ∧ c = ';' := by
  intro fuel
  induction fuel with
  | zero => intro st c st' h; simp [gettokF] at h
  | succ fuel ih =>
    intro st c st' h
    rw [gettokF] at h
    split at h
    · rename_i hnl
      simp only [Option.some.injEq, Prod.mk.injEq, Tok.ch.injEq] at h
      exact Or.inr ⟨hnl.1, h.1.symm⟩
    · split at h
      · rename_i c0 inp1 heq
        have hcs : isspace c0 = false := skipSpaces_not_space _ _ _ _ heq
        split at h
        · split at h
          simp only [Option.some.injEq, Prod.mk.injEq] at h
          rcases h with ⟨h1, -⟩
          split at h1
          · simp at h1
          · split at h1
            · simp at h1
            · simp at h1
        · split at h
          · split at h
            simp at h
          · split at h
            · split at h
              · exact ih _ _ _ h
              · simp at h
            · rename_i hna hnd hnh
              have hcc : c = c0 := by
                split at h <;> simp_all
              subst hcc
              refine Or.inl ⟨hcs, ?_, ?_, ?_, hnh⟩
              · simpa using hna
              · simp only [Bool.or_eq_true, decide_eq_true_eq, not_or] at hnd
                simpa using hnd.1
              · simp only [Bool.or_eq_true, decide_eq_true_eq, not_or] at hnd
                exact hnd.2
      · simp at h

/-- The shape of every identifier the lexer can build:
`[A-Za-z][A-Za-z0-9]*` over a character list. -/
def listIdentOk (l : List Char) : Bool :=
  match l with
  | [] => false
  | c :: cs => isalpha c && cs.all isalnum

/-- A string users can write as an identifier: nonempty, leading ASCII
letter, alphanumeric tail. -/
def isUserIdent (s : String) : Bool :=
  listIdentOk s.data

theorem readIdent_ok :
    ∀ inp acc, listIdentOk acc = true → listIdentOk (readIdent acc inp).1 = true := by
  intro inp
  induction inp with
  | nil => intro acc hacc; simpa [readIdent] using hacc
  | cons d rest ih =>
    intro acc hacc
    rw [readIdent]
    split
    · rename_i hd
      refine ih (acc ++ [d]) ?_
      rcases acc with - | ⟨a, cs⟩
      · simp [listIdentOk] at hacc
      · simp only [List.cons_append, listIdentOk, Bool.and_eq_true, List.all_eq_true] at hacc ⊢
        refine ⟨hacc.1, ?_⟩
        intro x hx
        simp only [List.mem_append, List.mem_singleton] at hx
        rcases hx with hx | rfl
        · exact hacc.2 x hx
        · exact hd
    · simpa using hacc

/-- Every `tok_identifier` the lexer produces carries a name matching
`[A-Za-z][A-Za-z0-9]*`. -/
theorem gettokF_ident_spec (nlSemi : Bool) :
    ∀ fuel st s st', gettokF nlSemi fuel st = some (Tok.ident s, st') →
      isUserIdent s = true := by
  intro fuel
  induction fuel with
  | zero => intro st s st' h; simp [gettokF] at h
  | succ fuel ih =>
    intro st s st' h
    rw [gettokF] at h
    split at h
    · simp at h
    · split at h
      · rename_i c0 inp1 heq
        split at h
        · rename_i hal
          split at h
          rename_i out lc2 inp2 hri
          have hok : listIdentOk out = true := by
            have h2 := readIdent_ok inp1 [c0] (by simp [listIdentOk, hal])
            rw [hri] at h2
            exact h2
          simp only [Option.some.injEq, Prod.mk.injEq] at h
          rcases h with ⟨h1, -⟩
          split at h1
          · simp at h1
          · split at h1
            · simp at h1
            · simp only [Tok.ident.injEq] at h1
              rw [← h1]
              exact hok
        · split at h
          · split at h
            simp at h
          · split at h
            · split at h
              · exact ih _ _ _ h
              · simp at h
            · split at h <;> simp at h
      · simp at h

/-! ## The parser never lengthens the token stream -/

theorem adv_length_le (ts : Toks) : (adv ts).length ≤ ts.length := by
  cases ts <;> simp [adv]

theorem adv_length_lt (ts : Toks) (h : ts ≠ []) : (adv ts).length < ts.length := by
  cases ts with
  | nil => exact absurd rfl h
  | cons a l => simp [adv]

theorem curT_ne_nil {ts : Toks} {t : Tok} (h : curT ts = t) (ht : t ≠ Tok.eof) :
    ts ≠ [] := by
  intro hnil
  rw [hnil] at h
  exact ht (h ▸ rfl)

@[simp] theorem PR.rest_ok (a : α) (r : Toks) : (PR.ok a r).rest = r := rfl

@[simp] theorem PR.rest_err (m : String) (r : Toks) : (PR.err m r : PR α).rest = r := rfl

theorem parser_rest_le :
    ∀ fuel cfg,
      (∀ ts, (ParseExpression cfg fuel ts).rest.length ≤ ts.length) ∧
      (∀ ts, (ParsePrimary cfg fuel ts).rest.length ≤ ts.length) ∧
      (∀ ts, (ParseParenExpr cfg fuel ts).rest.length ≤ ts.length) ∧
      (∀ s ts, (ParseIdentifierExpr cfg fuel s ts).rest.length ≤ ts.length) ∧
      (∀ args ts, (ParseCallArgs cfg fuel args ts).rest.length ≤ ts.length) ∧
      (∀ p lhs ts, (ParseBinOpRHS cfg fuel p lhs ts).rest.length ≤ ts.length) := by
  intro fuel
  induction fuel with
  | zero =>
    intro cfg
    refine ⟨?_, ?_, ?_, ?_, ?_, ?_⟩ <;> intros <;>
      simp [ParseExpression, ParsePrimary, ParseParenExpr, ParseIdentifierExpr,
        ParseCallArgs, ParseBinOpRHS]
  | succ fuel ih =>
    intro cfg
    obtain ⟨ihE, ihP, ihPar, ihId, ihArgs, ihBin⟩ := ih cfg
    have hE : ∀ ts, (ParseExpression cfg (fuel+1) ts).rest.length ≤ ts.length := by
      intro ts
      rw [ParseExpression]
      cases hp : ParsePrimary cfg fuel ts with
      | ok lhs ts1 =>
        have h1 : ts1.length ≤ ts.length := by
          have := ihP ts
          rw [hp] at this
          exact this
        exact (ihBin 0 lhs ts1).trans h1
      | err m r =>
        have := ihP ts
        rw [hp] at this
        exact this
    have hPar : ∀ ts, (ParseParenExpr cfg (fuel+1) ts).rest.length ≤ ts.length := by
      intro ts
      rw [ParseParenExpr]
      cases hp : ParseExpression cfg fuel (adv ts) with
      | ok v ts1 =>
        have h1 : ts1.length ≤ ts.length := by
          have := ihE (adv ts)
          rw [hp] at this
          exact this.trans (adv_length_le ts)
        dsimp only
        by_cases hc : curT ts1 = Tok.ch ')'
        · rw [if_pos hc]
          exact (adv_length_le ts1).trans h1
        · rw [if_neg hc]
          exact h1
      | err m r =>
        have := ihE (adv ts)
        rw [hp] at this
        exact this.trans (adv_length_le ts)
    have hId : ∀ s ts, (ParseIdentifierExpr cfg (fuel+1) s ts).rest.length ≤ ts.length := by
      intro s ts
      rw [ParseIdentifierExpr]
      by_cases h1 : curT (adv ts) = Tok.ch '('
      · rw [if_pos h1]
        by_cases h2 : curT (adv (adv ts)) = Tok.ch ')'
        · rw [if_pos h2]
          exact ((adv_length_le _).trans (adv_length_le _)).trans (adv_length_le _)
        · rw [if_neg h2]
          cases ha : ParseCallArgs cfg fuel [] (adv (adv ts)) with
          | ok args ts3 =>
            have h3 : ts3.length ≤ ts.length := by
              have := ihArgs [] (adv (adv ts))
              rw [ha] at this
              exact this.trans ((adv_length_le _).trans (adv_length_le _))
            exact (adv_length_le ts3).trans h3
          | err m r =>
            have := ihArgs [] (adv (adv ts))
            rw [ha] at this
            exact this.trans ((adv_length_le _).trans (adv_length_le _))
      · rw [if_neg h1]
        exact adv_length_le ts
    have hP : ∀ ts, (ParsePrimary cfg (fuel+1) ts).rest.length ≤ ts.length := by
      intro ts
      rw [ParsePrimary]
      split
      · exact ihId _ _
      · exact adv_length_le ts
      · exact ihPar ts
      · exact le_refl _
    have hArgs : ∀ args ts, (ParseCallArgs cfg (fuel+1) args ts).rest.length ≤ ts.length := by
      intro args ts
      rw [ParseCallArgs]
      cases hp : ParseExpression cfg fuel ts with
      | ok arg ts1 =>
        have h1 : ts1.length ≤ ts.length := by
          have := ihE ts
          rw [hp] at this
          exact this
        dsimp only
        by_cases hc1 : curT ts1 = Tok.ch ')'
        · rw [if_pos hc1]
          exact h1
        · rw [if_neg hc1]
          by_cases hc2 : curT ts1 = Tok.ch cfg.argSep
          · rw [if_pos hc2]
            exact (ihArgs _ (adv ts1)).trans ((adv_length_le ts1).trans h1)
          · rw [if_neg hc2]
            exact h1
      | err m r =>
        have := ihE ts
        rw [hp] at this
        exact this
    have hBin : ∀ p lhs ts, (ParseBinOpRHS cfg (fuel+1) p lhs ts).rest.length ≤ ts.length := by
      intro p lhs ts
      rw [ParseBinOpRHS]
      by_cases hlt : GetTokPrecedence (curT ts) < p
      · rw [if_pos hlt]
        exact le_refl _
      · rw [if_neg hlt]
        cases hp : ParsePrimary cfg fuel (adv ts) with
        | ok rhs ts2 =>
          have h2 : ts2.length ≤ ts.length := by
            have := ihP (adv ts)
            rw [hp] at this
            exact this.trans (adv_length_le ts)
          dsimp only
          by_cases hn : GetTokPrecedence (curT ts) < GetTokPrecedence (curT ts2)
          · rw [if_pos hn]
            cases hb : ParseBinOpRHS cfg fuel (GetTokPrecedence (curT ts)) rhs ts2 with
            | ok rhs1 ts3 =>
              have h3 : ts3.length ≤ ts2.length := by
                have := ihBin (GetTokPrecedence (curT ts)) rhs ts2
                rw [hb] at this
                exact this
              exact ((ihBin p _ ts3).trans h3).trans h2
            | err m r =>
              have := ihBin (GetTokPrecedence (curT ts)) rhs ts2
              rw [hb] at this
              exact this.trans h2
          · rw [if_neg hn]
            exact (ihBin p _ ts2).trans h2
        | err m r =>
          have := ihP (adv ts)
          rw [hp] at this
          exact this.trans (adv_length_le ts)
    exact ⟨hE, hP, hPar, hId, hArgs, hBin⟩

theorem ParseIdentifierExpr_ok_lt (cfg : Cfg) :
    ∀ fuel s ts e r, ts ≠ [] → ParseIdentifierExpr cfg fuel s ts = .ok e r →
      r.length < ts.length := by
  intro fuel s ts e r hne h
  match fuel with
  | 0 => simp [ParseIdentifierExpr] at h
  | g+1 =>
    rw [ParseIdentifierExpr] at h
    by_cases h1 : curT (adv ts) = Tok.ch '('
    · rw [if_pos h1] at h
      by_cases h2 : curT (adv (adv ts)) = Tok.ch ')'
      · rw [if_pos h2] at h
        simp only [PR.ok.injEq] at h
        rcases h with ⟨-, rfl⟩
        have h3 := adv_length_le (adv (adv ts))
        have h4 := adv_length_le (adv ts)
        have h5 := adv_length_lt ts hne
        omega
      · rw [if_neg h2] at h
        cases ha : ParseCallArgs cfg g [] (adv (adv ts)) with
        | ok args ts3 =>
          rw [ha] at h
          dsimp only at h
          simp only [PR.ok.injEq] at h
          rcases h with ⟨-, rfl⟩
          have h3 := (parser_rest_le g cfg).2.2.2.2.1 [] (adv (adv ts))
          rw [ha] at h3
          have h4 := adv_length_le (adv ts)
          have h5 := adv_length_lt ts hne
          have h6 := adv_length_le ts3
          simp only [PR.rest_ok] at h3
          omega
        | err m r2 =>
          rw [ha] at h
          dsimp only at h
          simp at h
    · rw [if_neg h1] at h
      simp only [PR.ok.injEq] at h
      rcases h with ⟨-, rfl⟩
      exact adv_length_lt ts hne

theorem ParseParenExpr_ok_lt (cfg : Cfg) :
    ∀ fuel ts e r, ts ≠ [] → ParseParenExpr cfg fuel ts = .ok e r →
      r.length < ts.length := by
  intro fuel ts e r hne h
  match fuel with
  | 0 => simp [ParseParenExpr] at h
  | g+1 =>
    rw [ParseParenExpr] at h
    cases hp : ParseExpression cfg g (adv ts) with
    | ok v ts1 =>
      rw [hp] at h
      dsimp only at h
      have h1 : ts1.length ≤ (adv ts).length := by
        have := (parser_rest_le g cfg).1 (adv ts)
        rw [hp] at this
        exact this
      by_cases hc : curT ts1 = Tok.ch ')'
      · rw [if_pos hc] at h
        simp only [PR.ok.injEq] at h
        rcases h with ⟨-, rfl⟩
        have h2 := adv_length_le ts1
        have h3 := adv_length_lt ts hne
        omega
      · rw [if_neg hc] at h
        simp at h
    | err m r2 =>
      rw [hp] at h
      dsimp only at h
      simp at h

theorem ParsePrimary_ok_lt (cfg : Cfg) :
    ∀ fuel ts e r, ParsePrimary cfg fuel ts = .ok e r → r.length < ts.length := by
  intro fuel ts e r h
  match fuel with
  | 0 => simp [ParsePrimary] at h
  | g+1 =>
    rw [ParsePrimary] at h
    split at h
    · rename_i s heq
      exact ParseIdentifierExpr_ok_lt cfg g s ts e r (curT_ne_nil heq (by simp)) h
    · rename_i v heq
      simp only [ParseNumberExpr, PR.ok.injEq] at h
      rcases h with ⟨-, rfl⟩
      exact adv_length_lt ts (curT_ne_nil heq (by simp))
    · rename_i heq
      exact ParseParenExpr_ok_lt cfg g ts e r (curT_ne_nil heq (by simp)) h
    · simp at h

theorem ParseExpression_ok_lt (cfg : Cfg) :
    ∀ fuel ts e r, ParseExpression cfg fuel ts = .ok e r → r.length < ts.length := by
  intro fuel ts e r h
  match fuel with
  | 0 => simp [ParseExpression] at h
  | g+1 =>
    rw [ParseExpression] at h
    cases hp : ParsePrimary cfg g ts with
    | ok lhs ts1 =>
      rw [hp] at h
      dsimp only at h
      have h1 := ParsePrimary_ok_lt cfg g ts lhs ts1 hp
      have h2 := (parser_rest_le g cfg).2.2.2.2.2 0 lhs ts1
      rw [h] at h2
      simp only [PR.rest_ok] at h2
      omega
    | err m r2 =>
      rw [hp] at h
      dsimp only at h
      simp at h

theorem collectParams_len : ∀ ts acc, (collectParams acc ts).2.length ≤ ts.length := by
  intro ts
  induction ts with
  | nil => intro acc; simp [collectParams]
  | cons a l ih =>
    intro acc
    rw [collectParams]
    split
    · exact (ih _).trans (by simp)
    · simp

theorem ParsePrototype_rest_le (ts : Toks) : (ParsePrototype ts).rest.length ≤ ts.length := by
  rw [ParsePrototype]
  split
  · rename_i fnName heq
    by_cases h1 : curT (adv ts) = Tok.ch '('
    · rw [if_pos h1]
      rcases hcp : collectParams [] (adv ts) with ⟨argNames, ts2⟩
      have h2 : ts2.length ≤ (adv ts).length := by
        have := collectParams_len (adv ts) []
        rw [hcp] at this
        exact this
      dsimp only
      by_cases h3 : curT ts2 = Tok.ch ')'
      · rw [if_pos h3]
        simp only [PR.rest_ok]
        exact ((adv_length_le ts2).trans h2).trans (adv_length_le ts)
      · rw [if_neg h3]
        simp only [PR.rest_err]
        exact h2.trans (adv_length_le ts)
    · rw [if_neg h1]
      simp only [PR.rest_err]
      exact adv_length_le ts
  · simp

theorem ParseDefinition_rest_le (cfg : Cfg) (fuel : Nat) (ts : Toks) :
    (ParseDefinition cfg fuel ts).rest.length ≤ (adv ts).length := by
  rw [ParseDefinition]
  cases hp : ParsePrototype (adv ts) with
  | ok proto ts1 =>
    dsimp only
    have h1 : ts1.length ≤ (adv ts).length := by
      have := ParsePrototype_rest_le (adv ts)
      rw [hp] at this
      exact this
    cases he : ParseExpression cfg fuel ts1 with
    | ok e ts2 =>
      dsimp only
      have h2 := (parser_rest_le fuel cfg).1 ts1
      rw [he] at h2
      simp only [PR.rest_ok] at h2 ⊢
      omega
    | err m r =>
      dsimp only
      have h2 := (parser_rest_le fuel cfg).1 ts1
      rw [he] at h2
      simp only [PR.rest_err] at h2 ⊢
      omega
  | err m r =>
    dsimp only
    have := ParsePrototype_rest_le (adv ts)
    rw [hp] at this
    simpa using this

theorem ParseTopLevelExpr_ok_lt (cfg : Cfg) (fuel : Nat) (ts : Toks) (f : FunctionAST)
    (r : Toks) (h : ParseTopLevelExpr cfg fuel ts = .ok f r) : r.length < ts.length := by
  rw [ParseTopLevelExpr] at h
  cases he : ParseExpression cfg fuel ts with
  | ok e ts1 =>
    rw [he] at h
    dsimp only at h
    simp only [PR.ok.injEq] at h
    rcases h with ⟨-, rfl⟩
    exact ParseExpression_ok_lt cfg fuel ts e ts1 he
  | err m r2 =>
    rw [he] at h
    dsimp only at h
    simp at h

theorem ParseTopLevelExpr_err_le (cfg : Cfg) (fuel : Nat) (ts : Toks) (m : String)
    (r : Toks) (h : ParseTopLevelExpr cfg fuel ts = .err m r) : r.length ≤ ts.length := by
  rw [ParseTopLevelExpr] at h
  cases he : ParseExpression cfg fuel ts with
  | ok e ts1 =>
    rw [he] at h
    dsimp only at h
    simp at h
  | err m2 r2 =>
    rw [he] at h
    dsimp only at h
    simp only [PR.err.injEq] at h
    rcases h with ⟨-, rfl⟩
    have := (parser_rest_le fuel cfg).1 ts
    rw [he] at this
    exact this

theorem MainLoopStep_none_iff (cfg : Cfg) (ts : Toks) :
    MainLoopStep cfg ts = none ↔ curT ts = Tok.eof := by
  rw [MainLoopStep]
  split <;> simp_all

theorem MainLoopStep_some_lt (cfg : Cfg) (ts ts' : Toks)
    (h : MainLoopStep cfg ts = some ts') : ts'.length < ts.length := by
  rw [MainLoopStep] at h
  split at h
  · simp at h
  · rename_i heq
    simp only [Option.some.injEq] at h
    subst h
    exact adv_length_lt ts (curT_ne_nil heq (by simp))
  · rename_i heq
    simp only [Option.some.injEq] at h
    subst h
    have hne : ts ≠ [] := curT_ne_nil heq (by simp)
    have hadv := adv_length_lt ts hne
    rw [HandleDefinition]
    cases hd : ParseDefinition cfg (ts.length + 1) ts with
    | ok f r =>
      dsimp only
      have h1 := ParseDefinition_rest_le cfg (ts.length + 1) ts
      rw [hd] at h1
      simp only [PR.rest_ok] at h1
      omega
    | err m r =>
      dsimp only
      have h1 := ParseDefinition_rest_le cfg (ts.length + 1) ts
      rw [hd] at h1
      simp only [PR.rest_err] at h1
      have h2 := adv_length_le r
      omega
  · rename_i heq
    simp only [Option.some.injEq] at h
    subst h
    have hne : ts ≠ [] := curT_ne_nil heq (by simp)
    have hadv := adv_length_lt ts hne
    rw [HandleExtern, ParseExternDecl]
    cases hd : ParsePrototype (adv ts) with
    | ok proto r =>
      dsimp only
      have h1 := ParsePrototype_rest_le (adv ts)
      rw [hd] at h1
      simp only [PR.rest_ok] at h1
      omega
    | err m r =>
      dsimp only
      have h1 := ParsePrototype_rest_le (adv ts)
      rw [hd] at h1
      simp only [PR.rest_err] at h1
      have h2 := adv_length_le r
      omega
  · rename_i hne1 hne2 hne3 hne4
    simp only [Option.some.injEq] at h
    subst h
    have hne : ts ≠ [] := curT_ne_nil rfl hne1
    have h0 : 0 < ts.length := List.length_pos.mpr hne
    rw [HandleTopLevelExpression]
    cases ht : ParseTopLevelExpr cfg (ts.length + 1) ts with
    | ok f r =>
      dsimp only
      exact ParseTopLevelExpr_ok_lt cfg (ts.length + 1) ts f r ht
    | err m r =>
      dsimp only
      have h1 := ParseTopLevelExpr_err_le cfg (ts.length + 1) ts m r ht
      have h2 : (adv r).length = r.length - 1 := by simp [adv]
      omega

/-- The driver loop halts on every finite token stream. -/
theorem MainLoop_halts (cfg : Cfg) (ts : Toks) :
    ∃ n, MainLoopIter cfg n ts = none := by
  have key : ∀ N ts, ts.length ≤ N → ∃ n, MainLoopIter cfg n ts = none := by
    intro N
    induction N with
    | zero =>
      intro ts hL
      have hnil : ts = [] := List.length_eq_zero.mp (Nat.le_zero.mp hL)
      refine ⟨1, ?_⟩
      have hstep : MainLoopStep cfg ts = none := by
        rw [MainLoopStep_none_iff, hnil]
        rfl
      simp [MainLoopIter, hstep]
    | succ N ihN =>
      intro ts hL
      cases hstep : MainLoopStep cfg ts with
      | none => exact ⟨1, by simp [MainLoopIter, hstep]⟩
      | some ts1 =>
        have hlt := MainLoopStep_some_lt cfg ts ts1 hstep
        obtain ⟨n, hn⟩ := ihN ts1 (by omega)
        exact ⟨n + 1, by simp [MainLoopIter, hstep, hn]⟩
  exact key ts.length ts (le_refl _)

/-! ## Precedence-table lookups -/

theorem lookup_append_single (m : List (Char × Int)) (c : Char) (v : Int) (d : Char) :
    (m ++ [(c, v)]).lookup d =
      match m.lookup d with
      | some w => some w
      | none => if d = c then some v else none := by
  induction m with
  | nil =>
    simp only [List.nil_append, List.lookup]
    by_cases h : d = c
    · simp [h]
    · have hb : (d == c) = false := by simp [h]
      simp [hb, h]
  | cons p l ih =>
    rcases p with ⟨k, w⟩
    simp only [List.cons_append, List.lookup]
    by_cases h : d = k
    · simp [h]
    · have hb : (d == k) = false := by simp [h]
      simp only [hb]
      exact ih

/-- Claim C9: `GetTokPrecedence` never returns 0: every query over any table
state yields `-1` or a strictly positive value that is actually registered in
the table, and although an unregistered ASCII character is default-inserted
with value 0 by `std::map::operator[]`, the insertion never changes the
result of any later precedence query; over the table installed by `main`,
the stateful query agrees with the pure precedence function the parser uses. -/
theorem C9_GetTokPrecedence_no_zero_and_stable :
    (∀ t m, (GetTokPrecedenceUpd t m).1 = -1 ∨
      (0 < (GetTokPrecedenceUpd t m).1 ∧ ∃ c, t = Tok.ch c ∧ c.toNat ≤ 127 ∧
        m.lookup c = some (GetTokPrecedenceUpd t m).1)) ∧
    (∀ t t2 m,
      (GetTokPrecedenceUpd t2 (GetTokPrecedenceUpd t m).2).1 =
        (GetTokPrecedenceUpd t2 m).1) ∧
    (∀ t, (GetTokPrecedenceUpd t BinopPrecedence).1 = GetTokPrecedence t) := by
  refine ⟨?_, ?_, ?_⟩
  · intro t m
    match t with
    | .eof | .defKw | .externKw | .ident _ | .num _ => exact Or.inl rfl
    | .ch c =>
      rw [GetTokPrecedenceUpd]
      by_cases ha : c.toNat ≤ 127
      · rw [if_pos ha]
        cases hl : m.lookup c with
        | some p =>
          have hmi : mapIndex m c = (p, m) := by rw [mapIndex, hl]
          rw [hmi]
          dsimp only
          by_cases hp : p ≤ 0
          · rw [if_pos hp]
            exact Or.inl rfl
          · rw [if_neg hp]
            exact Or.inr ⟨by omega, c, rfl, ha, hl⟩
        | none =>
          have hmi : mapIndex m c = (0, m ++ [(c, 0)]) := by rw [mapIndex, hl]
          rw [hmi]
          dsimp only
          rw [if_pos (le_refl (0 : Int))]
          exact Or.inl rfl
      · rw [if_neg ha]
        exact Or.inl rfl
  · intro t t2 m
    match t with
    | .eof | .defKw | .externKw | .ident _ | .num _ => rfl
    | .ch c =>
      rw [GetTokPrecedenceUpd]
      by_cases ha : c.toNat ≤ 127
      · rw [if_pos ha]
        cases hl : m.lookup c with
        | some p =>
          have hmi : mapIndex m c = (p, m) := by rw [mapIndex, hl]
          rw [hmi]
        | none =>
          have hmi : mapIndex m c = (0, m ++ [(c, 0)]) := by rw [mapIndex, hl]
          rw [hmi]
          dsimp only
          match t2 with
          | .eof | .defKw | .externKw | .ident _ | .num _ => rfl
          | .ch d =>
            rw [GetTokPrecedenceUpd, GetTokPrecedenceUpd]
            by_cases ha2 : d.toNat ≤ 127
            · rw [if_pos ha2, if_pos ha2]
              cases hld : m.lookup d with
              | some w =>
                have h1 : (m ++ [(c, 0)]).lookup d = some w := by
                  rw [lookup_append_single, hld]
                have hmi1 : mapIndex (m ++ [(c, 0)]) d = (w, m ++ [(c, 0)]) := by
                  rw [mapIndex, h1]
                have hmi2 : mapIndex m d = (w, m) := by rw [mapIndex, hld]
                rw [hmi1, hmi2]
              | none =>
                by_cases hdc : d = c
                · have h1 : (m ++ [(c, 0)]).lookup d = some 0 := by
                    rw [lookup_append_single, hld]
                    simp [hdc]
                  have hmi1 : mapIndex (m ++ [(c, 0)]) d = (0, m ++ [(c, 0)]) := by
                    rw [mapIndex, h1]
                  have hmi2 : mapIndex m d = (0, m ++ [(d, 0)]) := by rw [mapIndex, hld]
                  rw [hmi1, hmi2]
                · have h1 : (m ++ [(c, 0)]).lookup d = none := by
                    rw [lookup_append_single, hld]
                    simp [hdc]
                  have hmi1 : mapIndex (m ++ [(c, 0)]) d =
                      (0, (m ++ [(c, 0)]) ++ [(d, 0)]) := by
                    rw [mapIndex, h1]
                  have hmi2 : mapIndex m d = (0, m ++ [(d, 0)]) := by rw [mapIndex, hld]
                  rw [hmi1, hmi2]
            · rw [if_neg ha2, if_neg ha2]
      · rw [if_neg ha]
  · intro t
    match t with
    | .eof | .defKw | .externKw | .ident _ | .num _ => rfl
    | .ch c =>
      rw [GetTokPrecedenceUpd, GetTokPrecedence]
      by_cases ha : c.toNat ≤ 127
      · rw [if_pos ha, if_pos ha]
        cases hl : BinopPrecedence.lookup c with
        | some p =>
          have hmi : mapIndex BinopPrecedence c = (p, BinopPrecedence) := by
            rw [mapIndex, hl]
          rw [hmi]
        | none =>
          have hmi : mapIndex BinopPrecedence c =
              (0, BinopPrecedence ++ [(c, 0)]) := by rw [mapIndex, hl]
          rw [hmi]
          dsimp only
          rw [if_pos (le_refl (0 : Int))]
      · rw [if_neg ha, if_neg ha]

/-- Claim C1 (amended): over the default operator table (`<`→10, `+`→20,
`-`→20, `*`→40), a strictly higher-precedence operator on the right is
absorbed first (right-leaning nesting), and a flat chain of
equal-precedence operators associates left; `1+2*3` parses as `1+(2*3)`,
`1-2-3` as `(1-2)-3`, `1<2+3` as `1<(2+3)`.  The universal
left-associativity clause fails, however: `ParseBinOpRHS` recurses with
minimum precedence `TokPrec` instead of `TokPrec+1`, so once a strictly
higher-precedence right-hand subtree has been absorbed, a following
operator of precedence down to and including `TokPrec` is absorbed into
that right subtree: `1+2*3+4` parses as `1+((2*3)+4)`. -/
theorem C1_precedence_and_associativity :
    (GetTokPrecedence (Tok.ch '<') = 10 ∧ GetTokPrecedence (Tok.ch '+') = 20 ∧
      GetTokPrecedence (Tok.ch '-') = 20 ∧ GetTokPrecedence (Tok.ch '*') = 40) ∧
    (∀ (cfg : Cfg) (a b c : ℚ) (o1 o2 : Char),
      o1 ∈ ['<', '+', '-', '*'] → o2 ∈ ['<', '+', '-', '*'] →
      (GetTokPrecedence (Tok.ch o1) < GetTokPrecedence (Tok.ch o2) →
        ParseExpression cfg 9 [Tok.num a, Tok.ch o1, Tok.num b, Tok.ch o2, Tok.num c] =
          .ok (.binop o1 (.num a) (.binop o2 (.num b) (.num c))) []) ∧
      (GetTokPrecedence (Tok.ch o2) ≤ GetTokPrecedence (Tok.ch o1) →
        ParseExpression cfg 9 [Tok.num a, Tok.ch o1, Tok.num b, Tok.ch o2, Tok.num c] =
          .ok (.binop o2 (.binop o1 (.num a) (.num b)) (.num c)) [])) ∧
    (∀ (cfg : Cfg) (a b c d : ℚ) (o1 o2 o3 : Char),
      o1 ∈ ['<', '+', '-', '*'] → o2 ∈ ['<', '+', '-', '*'] →
      o3 ∈ ['<', '+', '-', '*'] →
      (GetTokPrecedence (Tok.ch o1) < GetTokPrecedence (Tok.ch o2) ∧
        GetTokPrecedence (Tok.ch o1) ≤ GetTokPrecedence (Tok.ch o3) ∧
        GetTokPrecedence (Tok.ch o3) ≤ GetTokPrecedence (Tok.ch o2) →
        ParseExpression cfg 12
            [Tok.num a, Tok.ch o1, Tok.num b, Tok.ch o2, Tok.num c,
             Tok.ch o3, Tok.num d] =
          .ok (.binop o1 (.num a)
            (.binop o3 (.binop o2 (.num b) (.num c)) (.num d))) []) ∧
      (GetTokPrecedence (Tok.ch o1) = GetTokPrecedence (Tok.ch o2) ∧
        GetTokPrecedence (Tok.ch o2) = GetTokPrecedence (Tok.ch o3) →
        ParseExpression cfg 12
            [Tok.num a, Tok.ch o1, Tok.num b, Tok.ch o2, Tok.num c,
             Tok.ch o3, Tok.num d] =
          .ok (.binop o3 (.binop o2 (.binop o1 (.num a) (.num b)) (.num c))
            (.num d)) [])) ∧
    ParseExpression jitCfg 20 (lexStr false "1+2*3") =
      .ok (.binop '+' (.num 1) (.binop '*' (.num 2) (.num 3))) [Tok.eof] ∧
    ParseExpression jitCfg 20 (lexStr false "1-2-3") =
      .ok (.binop '-' (.binop '-' (.num 1) (.num 2)) (.num 3)) [Tok.eof] ∧
    ParseExpression jitCfg 20 (lexStr false "1<2+3") =
      .ok (.binop '<' (.num 1) (.binop '+' (.num 2) (.num 3))) [Tok.eof] ∧
    ParseExpression jitCfg 20 (lexStr false "1+2*3+4") =
      .ok (.binop '+' (.num 1)
        (.binop '+' (.binop '*' (.num 2) (.num 3)) (.num 4))) [Tok.eof] := by
  refine ⟨⟨rfl, rfl, rfl, rfl⟩, ?_, ?_, rfl, rfl, rfl, rfl⟩
  · intro cfg a b c o1 o2 h1 h2
    fin_cases h1 <;> fin_cases h2 <;>
      exact ⟨fun hp => by first | rfl | exact absurd hp (by decide),
             fun hp => by first | rfl | exact absurd hp (by decide)⟩
  · intro cfg a b c d o1 o2 o3 h1 h2 h3
    fin_cases h1 <;> fin_cases h2 <;> fin_cases h3 <;>
      exact ⟨fun hp => by first | rfl | exact absurd hp (by decide),
             fun hp => by first | rfl | exact absurd hp (by decide)⟩

theorem C1_counterexample :
    ParseExpression jitCfg 20 (lexStr false "1+2*3+4") =
      .ok (.binop '+' (.num 1)
        (.binop '+' (.binop '*' (.num 2) (.num 3)) (.num 4))) [Tok.eof] ∧
    ParseExpression jitCfg 20 (lexStr false "1+2*3+4") ≠
      .ok (.binop '+' (.binop '+' (.num 1) (.binop '*' (.num 2) (.num 3)))
        (.num 4)) [Tok.eof] := by
  have h : ParseExpression jitCfg 20 (lexStr false "1+2*3+4") =
      .ok (.binop '+' (.num 1)
        (.binop '+' (.binop '*' (.num 2) (.num 3)) (.num 4))) [Tok.eof] := rfl
  refine ⟨h, ?_⟩
  rw [h]
  simp

theorem C1_witness :
    ParseExpression jitCfg 12
        [Tok.num 1, Tok.ch '+', Tok.num 2, Tok.ch '*', Tok.num 3,
         Tok.ch '+', Tok.num 4] =
      .ok (.binop '+' (.num 1)
        (.binop '+' (.binop '*' (.num 2) (.num 3)) (.num 4))) [] :=
  (C1_precedence_and_associativity.2.2.1 jitCfg 1 2 3 4 '+' '*' '+'
    (by decide) (by decide) (by decide)).1 (by decide)

/-- Claim C2: in a call argument list, after each parsed argument the
current token must be `)` or the separator; in the JIT variant the
separator really is `,`, so `f()` is a zero-argument call, `f(1,2)` is a
two-argument call and `f(1,2,)` errs on the token after the stray comma —
but in `src/main.cpp` the test is against `'.'` (contradicting its own
error message), so even `f(1,2)` fails with
"expected \x27)\x27 or \x27,\x27 in argument list" at the comma. -/
theorem C2_call_argument_list :
    (∀ fuel args ts arg ts1, ParseExpression jitCfg fuel ts = .ok arg ts1 →
      curT ts1 ≠ Tok.ch ')' → curT ts1 ≠ Tok.ch ',' →
      ParseCallArgs jitCfg (fuel+1) args ts =
        .err ("expected \x27)\x27 or \x27,\x27 in argument list") ts1) ∧
    ParseExpression jitCfg 20 (lexStr false "f()") = .ok (.call "f" []) [Tok.eof] ∧
    ParseExpression jitCfg 20 (lexStr false "f(1,2)") =
      .ok (.call "f" [.num 1, .num 2]) [Tok.eof] ∧
    ParseExpression jitCfg 20 (lexStr false "f(1,2,)") =
      .err ("unknown token") [Tok.ch ')', Tok.eof] ∧
    ParseExpression mainCfg 20 (lexStr true "f(1,2)") =
      .err ("expected \x27)\x27 or \x27,\x27 in argument list")
        [Tok.ch ',', Tok.num 2, Tok.ch ')', Tok.eof] := by
  refine ⟨?_, rfl, rfl, rfl, rfl⟩
  intro fuel args ts arg ts1 h hpr hcr
  rw [ParseCallArgs, h]
  dsimp only
  have hsep : jitCfg.argSep = ',' := rfl
  rw [if_neg hpr, hsep, if_neg hcr]

theorem C2_witness :
    ParseCallArgs jitCfg 4 [] [Tok.num 1, Tok.eof] =
      .err ("expected \x27)\x27 or \x27,\x27 in argument list") [Tok.eof] :=
  C2_call_argument_list.1 3 [] [Tok.num 1, Tok.eof] (.num 1) [Tok.eof] rfl
    (by decide) (by decide)

theorem skipComment_eof :
    ∀ inp : List Char, (∀ c ∈ inp, c ≠ '\n' ∧ c ≠ '\r') →
      skipComment inp = (none, []) := by
  intro inp
  induction inp with
  | nil => intro h; rfl
  | cons d rest ih =>
    intro h
    rw [skipComment]
    have hd := h d (List.mem_cons_self d rest)
    rw [if_neg (by simp [hd.1, hd.2])]
    exact ih (fun c hc => h c (List.mem_cons_of_mem d hc))

/-- Claim C3 (amended): the JIT-variant lexer never produces a token from a
whitespace character and lexes `# comment\n1+1` identically to `1+1`; in
both variants a comment that runs to end-of-stream is fully elided (the
comment loop reaches end-of-stream and `gettok` yields the end-of-input
token, so `1+1# comment` lexes identically to `1+1`).  The `src/main.cpp`
lexer, however, converts a pending newline to a `;` token, so there
`# comment\n1+1` lexes as `;` followed by the tokens of `1+1`. -/
theorem C3_comment_and_whitespace_lexing :
    (∀ fuel st c st', gettokF false fuel st = some (Tok.ch c, st') →
      isspace c = false) ∧
    (∀ nlSemi fuel (inp : List Char), (∀ c ∈ inp, c ≠ '\n' ∧ c ≠ '\r') →
      gettokF nlSemi (fuel+1) ⟨inp, some '#'⟩ = some (Tok.eof, ⟨[], none⟩)) ∧
    lexStr false "# comment\n1+1" = lexStr false "1+1" ∧
    lexStr false "1+1# comment" = lexStr false "1+1" ∧
    lexStr true "1+1# comment" = lexStr true "1+1" ∧
    lexStr false "# comment" = lexStr false "" ∧
    lexStr true "# comment" = lexStr true "" ∧
    lexStr true "# comment\n1+1" = Tok.ch ';' :: lexStr true "1+1" := by
  refine ⟨?_, ?_, by decide, by decide, by decide, by decide, by decide, by decide⟩
  · intro fuel st c st' h
    rcases gettokF_ch_spec false fuel st c st' h with ⟨hs, -⟩ | ⟨hnl, -⟩
    · exact hs
    · exact absurd hnl (by decide)
  · intro nlSemi fuel inp h
    rw [gettokF]
    rw [if_neg (by simp)]
    dsimp only
    have hss : skipSpaces (some '#') inp = (some '#', inp) := by
      cases inp <;> rfl
    rw [hss]
    dsimp only
    rw [if_neg (by decide), if_neg (by decide), if_pos rfl]
    rw [skipComment_eof inp h]

theorem C3_counterexample :
    lexStr true "# comment\n1+1" ≠ lexStr true "1+1" := by decide

theorem C3_witness : isspace '+' = false :=
  C3_comment_and_whitespace_lexing.1 1 ⟨[], some '+'⟩ '+' ⟨[], none⟩ rfl

/-- Claim C4: when the character source is at end-of-stream, the next
`gettok` yields the end-of-input token; the main loop returns exactly when
the current token is the end-of-input token; and a session over any finite
input halts: tokenisation completes and the driver loop reaches its
end-of-input return after finitely many turns. -/
theorem C4_eof_token_and_loop_termination :
    (∀ nlSemi fuel st, st.lastChar = none →
      gettokF nlSemi (fuel+1) st = some (Tok.eof, st)) ∧
    (∀ cfg ts, MainLoopStep cfg ts = none ↔ curT ts = Tok.eof) ∧
    (∀ nlSemi s, ∃ toks,
      lexAllF nlSemi (lexMeasure (initLex s) + 1) (initLex s) = some toks) ∧
    (∀ cfg toks, ∃ n, MainLoopIter cfg n toks = none) := by
  refine ⟨?_, MainLoopStep_none_iff, ?_, MainLoop_halts⟩
  · intro nlSemi fuel st h
    rcases st with ⟨inp, lc⟩
    simp only at h
    subst h
    rw [gettokF]
    rw [if_neg (by simp)]
    dsimp only
    have hss : skipSpaces (none : Option Char) inp = (none, inp) := by
      cases inp <;> rfl
    rw [hss]
  · intro nlSemi s
    exact Option.isSome_iff_exists.mp
      (lexAllF_enough_fuel nlSemi (lexMeasure (initLex s) + 1) (initLex s) (by omega))

theorem C4_witness :
    gettokF false 1 (⟨[], none⟩ : LexState) = some (Tok.eof, ⟨[], none⟩) :=
  C4_eof_token_and_loop_termination.1 false 0 ⟨[], none⟩ rfl

/-- Claim C5: `ParseParenExpr` returns the inner expression unwrapped, so
parentheses leave no trace in the AST: wrapping an expression in one or two
pairs of parentheses parses, in primary position, to exactly the AST of the inner
expression; in particular `(1+2)*3` and `((1+2))*3` produce
identical ASTs. -/
theorem C5_paren_transparency :
    (∀ cfg fuel ts e r, ParseExpression cfg fuel ts = .ok e (Tok.ch ')' :: r) →
      ParsePrimary cfg (fuel+2) (Tok.ch '(' :: ts) = .ok e r) ∧
    (∀ cfg fuel ts e r,
      ParseExpression cfg fuel ts = .ok e (Tok.ch ')' :: Tok.ch ')' :: r) →
      ParsePrimary cfg (fuel+5) (Tok.ch '(' :: Tok.ch '(' :: ts) = .ok e r) ∧
    ParseExpression jitCfg 20 (lexStr false "(1+2)*3") =
      ParseExpression jitCfg 20 (lexStr false "((1+2))*3") ∧
    ParseExpression jitCfg 20 (lexStr false "(1+2)*3") =
      .ok (.binop '*' (.binop '+' (.num 1) (.num 2)) (.num 3)) [Tok.eof] := by
  have key : ∀ cfg fuel ts e r, ParseExpression cfg fuel ts = .ok e (Tok.ch ')' :: r) →
      ParsePrimary cfg (fuel+2) (Tok.ch '(' :: ts) = .ok e r := by
    intro cfg fuel ts e r h
    show ParseParenExpr cfg (fuel+1) (Tok.ch '(' :: ts) = .ok e r
    rw [ParseParenExpr]
    have hadv : adv (Tok.ch '(' :: ts) = ts := rfl
    rw [hadv, h]
    dsimp only
    have hcur : curT (Tok.ch ')' :: r) = Tok.ch ')' := rfl
    rw [hcur, if_pos rfl]
    rfl
  refine ⟨key, ?_, rfl, rfl⟩
  intro cfg fuel ts e r h
  have h1 : ParsePrimary cfg (fuel+2) (Tok.ch '(' :: ts) = .ok e (Tok.ch ')' :: r) :=
    key cfg fuel ts e (Tok.ch ')' :: r) h
  have h2 : ParseExpression cfg (fuel+3) (Tok.ch '(' :: ts) =
      .ok e (Tok.ch ')' :: r) := by
    rw [ParseExpression, h1]
    dsimp only
    rw [ParseBinOpRHS]
    have hp : GetTokPrecedence (curT (Tok.ch ')' :: r)) < 0 := by
      have h0 : GetTokPrecedence (curT (Tok.ch ')' :: r)) = -1 := rfl
      rw [h0]
      omega
    rw [if_pos hp]
  exact key cfg (fuel+3) (Tok.ch '(' :: ts) e r h2

theorem C5_witness :
    ParsePrimary jitCfg 5 [Tok.ch '(', Tok.num 1, Tok.ch ')'] = .ok (.num 1) [] :=
  C5_paren_transparency.1 jitCfg 3 [Tok.num 1, Tok.ch ')'] (.num 1) [] rfl

theorem collectParams_spec :
    ∀ params acc x t rest, (∀ s, t ≠ Tok.ident s) →
      collectParams acc (x :: (params.map Tok.ident ++ t :: rest)) =
        (acc ++ params, t :: rest) := by
  intro params
  induction params with
  | nil =>
    intro acc x t rest ht
    rw [collectParams]
    simp only [List.map_nil, List.nil_append]
    split
    · rename_i s heq
      exact absurd (by simpa [curT] using heq) (ht s)
    · simp
  | cons p ps ih =>
    intro acc x t rest ht
    rw [collectParams]
    simp only [List.map_cons, List.cons_append]
    show collectParams (acc ++ [p]) (Tok.ident p :: (List.map Tok.ident ps ++ t :: rest)) =
      (acc ++ p :: ps, t :: rest)
    rw [ih (acc ++ [p]) (Tok.ident p) t rest ht]
    simp

/-- Claim C6: `ParsePrototype` requires an identifier, then `(`, then zero
or more parameter identifiers with no separators (the first non-identifier
token ends the list), then `)`; its failure messages are "expected function
name", "expected \x27(\x27" and "expected \x27)\x27"; and
`def foo(a b) a+b` parses to the expected `FunctionAST`. -/
theorem C6_prototype_parsing :
    (∀ params fn t rest, (∀ s, t ≠ Tok.ident s) →
      ParsePrototype
          (Tok.ident fn :: Tok.ch '(' :: (params.map Tok.ident ++ t :: rest)) =
        if t = Tok.ch ')' then .ok ⟨fn, params⟩ rest
        else .err ("expected \x27)\x27") (t :: rest)) ∧
    (∀ ts, (∀ s, curT ts ≠ Tok.ident s) →
      ParsePrototype ts = .err ("expected function name") ts) ∧
    (∀ fn ts, curT ts = Tok.ident fn → curT (adv ts) ≠ Tok.ch '(' →
      ParsePrototype ts = .err ("expected \x27(\x27") (adv ts)) ∧
    ParseDefinition jitCfg 20 (lexStr false "def foo(a b) a+b") =
      .ok ⟨⟨"foo", ["a", "b"]⟩, .binop '+' (.var "a") (.var "b")⟩ [Tok.eof] := by
  refine ⟨?_, ?_, ?_, rfl⟩
  · intro params fn t rest ht
    have hcp := collectParams_spec params [] (Tok.ch '(') t rest ht
    show (match collectParams []
            (Tok.ch '(' :: (List.map Tok.ident params ++ t :: rest)) with
          | (argNames, ts2) =>
            if curT ts2 = Tok.ch ')' then
              PR.ok (⟨fn, argNames⟩ : Prototype) (adv ts2)
            else PR.err ("expected \x27)\x27") ts2) =
        if t = Tok.ch ')' then .ok ⟨fn, params⟩ rest
        else .err ("expected \x27)\x27") (t :: rest)
    rw [hcp]
    dsimp only
    simp only [List.nil_append]
    have hct : curT (t :: rest) = t := rfl
    rw [hct]
    by_cases hc : t = Tok.ch ')'
    · rw [if_pos hc, if_pos hc]
      rfl
    · rw [if_neg hc, if_neg hc]
  · intro ts hne
    rw [ParsePrototype]
    split
    · rename_i fnName heq
      exact absurd heq (hne fnName)
    · rfl
  · intro fn ts hfn hnp
    rw [ParsePrototype]
    split
    · rw [if_neg hnp]
    · rename_i hno
      exact absurd hfn (hno fn)

theorem C6_witness :
    ParsePrototype [Tok.ident "f", Tok.ch '(', Tok.ident "a", Tok.ch ')', Tok.eof] =
      .ok ⟨"f", ["a"]⟩ [Tok.eof] := by
  have h := C6_prototype_parsing.1 ["a"] "f" (Tok.ch ')') [Tok.eof]
    (fun s hs => Tok.noConfusion hs)
  simpa using h

/-- Claim C7 (amended): whenever the current token is neither an
identifier, a number, nor `(`, `ParsePrimary` fails, and the message the
code actually reports is "unknown token" (not "unknown token when
expecting an expression"). -/
theorem C7_unknown_token_message :
    ∀ cfg fuel ts, (∀ s, curT ts ≠ Tok.ident s) → (∀ v, curT ts ≠ Tok.num v) →
      curT ts ≠ Tok.ch '(' →
      ParsePrimary cfg (fuel+1) ts = .err ("unknown token") ts := by
  intro cfg fuel ts h1 h2 h3
  rw [ParsePrimary]
  split
  · rename_i s heq
    exact absurd heq (h1 s)
  · rename_i v heq
    exact absurd heq (h2 v)
  · rename_i heq
    exact absurd heq h3
  · rfl

theorem C7_counterexample :
    ParsePrimary jitCfg 1 [Tok.ch ')'] = .err ("unknown token") [Tok.ch ')'] ∧
    ("unknown token" : String) ≠ "unknown token when expecting an expression" :=
  ⟨rfl, by decide⟩

theorem C7_witness :
    ParsePrimary jitCfg 3 [Tok.ch '+'] = .err ("unknown token") [Tok.ch '+'] :=
  C7_unknown_token_message jitCfg 2 [Tok.ch '+'] (fun s => by simp [curT])
    (fun v => by simp [curT]) (by simp [curT])

/-- Claim C8: every successful bare top-level expression is wrapped by
`ParseTopLevelExpr` in a `FunctionAST` whose prototype has an empty
parameter list and a reserved name (`""` in `src/main.cpp`, `"__anon_expr"`
in the JIT variant) that no lexer-produced identifier can equal, because
every identifier the lexer produces matches `[A-Za-z][A-Za-z0-9]*` and the
reserved names do not. -/
theorem C8_anonymous_toplevel_prototype :
    (∀ nlSemi fuel st s st', gettokF nlSemi fuel st = some (Tok.ident s, st') →
      isUserIdent s = true) ∧
    isUserIdent "" = false ∧
    isUserIdent "__anon_expr" = false ∧
    (∀ fuel ts f r, ParseTopLevelExpr mainCfg fuel ts = .ok f r →
      f.proto = ⟨"", []⟩) ∧
    (∀ fuel ts f r, ParseTopLevelExpr jitCfg fuel ts = .ok f r →
      f.proto = ⟨"__anon_expr", []⟩) := by
  have key : ∀ cfg fuel ts f r, ParseTopLevelExpr cfg fuel ts = .ok f r →
      f.proto = ⟨cfg.anonName, []⟩ := by
    intro cfg fuel ts f r h
    rw [ParseTopLevelExpr] at h
    cases he : ParseExpression cfg fuel ts with
    | ok e ts1 =>
      rw [he] at h
      dsimp only at h
      simp only [PR.ok.injEq] at h
      rcases h with ⟨rfl, -⟩
      rfl
    | err m r2 =>
      rw [he] at h
      dsimp only at h
      simp at h
  exact ⟨fun nlSemi => gettokF_ident_spec nlSemi, by decide, by decide,
    key mainCfg, key jitCfg⟩

theorem C8_witness :
    (FunctionAST.mk ⟨"", []⟩ (.num 42)).proto = ⟨"", []⟩ :=
  C8_anonymous_toplevel_prototype.2.2.2.1 20 (lexStr true "42")
    ⟨⟨"", []⟩, .num 42⟩ [Tok.eof] rfl

/-- Claim C10: a token beginning with `.` is always lexed as a number
token, never as single-character punctuation: a lone `.` followed by a
non-digit, non-dot character yields the number token with value 0.0
(the `strtod` prefix parse of "."), so `.` can never reach the parser as an
operator or punctuation token. -/
theorem C10_dot_lexes_as_number :
    (∀ nlSemi fuel st c st', gettokF nlSemi fuel st = some (Tok.ch c, st') →
      c ≠ '.') ∧
    (∀ nlSemi fuel c rest, isdigit c = false → c ≠ '.' →
      gettokF nlSemi (fuel+1) ⟨c :: rest, some '.'⟩ =
        some (Tok.num 0, ⟨rest, some c⟩)) ∧
    lexStr false "." = [Tok.num 0, Tok.eof] := by
  refine ⟨?_, ?_, ?_⟩
  · intro nlSemi fuel st c st' h
    rcases gettokF_ch_spec nlSemi fuel st c st' h with ⟨-, -, -, hd, -⟩ | ⟨-, rfl⟩
    · exact hd
    · decide
  · intro nlSemi fuel c rest hdig hdot
    rw [gettokF]
    rw [if_neg (by simp)]
    dsimp only
    have hss : skipSpaces (some '.') (c :: rest) = (some '.', c :: rest) := rfl
    rw [hss]
    dsimp only
    rw [if_neg (by decide), if_pos (by decide)]
    have hrn : readNumLoop ['.'] (c :: rest) = (['.'], some c, rest) := by
      rw [readNumLoop]
      rw [if_neg (by simp [hdig, hdot])]
    rw [hrn]
    dsimp only
    rw [strtod_dot]
  · have h : lexStr false "." = [Tok.num (strtod (String.mk ['.'])), Tok.eof] := rfl
    rw [h, strtod_dot]

theorem C10_witness :
    gettokF false 1 (⟨['+'], some '.'⟩ : LexState) =
      some (Tok.num 0, ⟨[], some '+'⟩) :=
  C10_dot_lexes_as_number.2.1 false 0 '+' [] (by decide) (by decide)
